import Mathlib

/-!
# Verification of the credential probe engine of `my-toolbox`

This file gives a shallow embedding of the password-cracker engine of the
repository and settles the specification's claims about it.

The repository ships only the TypeScript frontend; the backend commands
(`crack_password` candidate generation and scheduling, and the result store)
are invoked through `invoke` but their code is not part of the source tree.
Those parts are therefore modelled from the specification's words (each such
definition says so in its doc comment).  The frontend functions
(`handleCrack`, `parseStudentSheet`, `parseDateText`, `progressPercent`) are
translated directly from `src/components/PasswordCrackerTool.tsx`.
-/

namespace MyToolbox

/-! ## Candidate generator (modelled from the spec) -/

/-- Modelled from the spec: the date-format rules the generator renders
(`YYYYMMDD`, `MMDD`, `YYMMDD`); the backend `crack_password` command that
owns them is not in the source tree. -/
inductive DateFormat where
  | YYYYMMDD
  | MMDD
  | YYMMDD
deriving DecidableEq

/-- Modelled from the spec: Gregorian leap-year rule ("leap years honored"). -/
def isLeap (y : Nat) : Bool :=
  y % 4 == 0 && (y % 100 != 0 || y % 400 == 0)

/-- Modelled from the spec: number of days of month `m` (1-12) of year `y`. -/
def daysInMonth (y m : Nat) : Nat :=
  match m with
  | 1 => 31
  | 2 => if isLeap y then 29 else 28
  | 3 => 31
  | 4 => 30
  | 5 => 31
  | 6 => 30
  | 7 => 31
  | 8 => 31
  | 9 => 30
  | 10 => 31
  | 11 => 30
  | 12 => 31
  | _ => 0

/-- A calendrically valid date: month 1-12, day valid for that month/year. -/
def validDate (y m d : Nat) : Prop :=
  1 ≤ m ∧ m ≤ 12 ∧ 1 ≤ d ∧ d ≤ daysInMonth y m

instance (y m d : Nat) : Decidable (validDate y m d) := by
  unfold validDate
  infer_instance

/-- Left-pad a numeral string with zeros to width `w`. -/
def padZero (w : Nat) (s : String) : String :=
  if s.length < w then String.mk (List.replicate (w - s.length) ('0')) ++ s else s

/-- Two-digit zero-padded rendering of a number. -/
def pad2 (n : Nat) : String := padZero 2 (toString n)

/-- Modelled from the spec: render one valid `(month, day)` pair of year `y`
"per that format's literal layout". -/
def render (f : DateFormat) (y m d : Nat) : String :=
  match f with
  | .YYYYMMDD => padZero 4 (toString y) ++ pad2 m ++ pad2 d
  | .MMDD => pad2 m ++ pad2 d
  | .YYMMDD => pad2 (y % 100) ++ pad2 m ++ pad2 d

/-- Modelled from the spec: "iterate all valid `(month, day)` pairs for the
given year"; months run 1-12 and days 1 to `daysInMonth`, so a date whose
calendar validity fails (e.g. Feb 30) is never produced. -/
def allValidDates (y : Nat) : List (Nat × Nat) :=
  (List.range 12).flatMap fun i =>
    (List.range (daysInMonth y (i + 1))).map fun j => (i + 1, j + 1)

/-- First-occurrence duplicate elimination, the "overall duplicate-elimination
pass so identical literal strings across formats are attempted once". -/
def dedupFirst : List String → List String
  | [] => []
  | c :: rest => c :: (dedupFirst rest).filter (fun x => x != c)

/-- Modelled from the spec: `generate(year, formats)` — the concatenation of
the per-format sequences of rendered valid dates, deduplicated. -/
def generate (y : Nat) (fs : List DateFormat) : List String :=
  dedupFirst (fs.flatMap fun f => (allValidDates y).map fun p => render f y p.1 p.2)

lemma mem_dedupFirst {x : String} : ∀ {l : List String}, x ∈ dedupFirst l ↔ x ∈ l := by
  intro l
  induction l with
  | nil => simp [dedupFirst]
  | cons c rest ih =>
    by_cases hx : x = c
    · simp [dedupFirst, hx]
    · simp [dedupFirst, List.mem_filter, hx, ih]

lemma nodup_dedupFirst : ∀ (l : List String), (dedupFirst l).Nodup := by
  intro l
  induction l with
  | nil => simp [dedupFirst]
  | cons c rest ih =>
    refine List.Nodup.cons ?_ (List.Nodup.filter _ ih)
    intro hmem
    have := (List.mem_filter.mp hmem).2
    simp at this

lemma mem_allValidDates {y m d : Nat} (h : (m, d) ∈ allValidDates y) :
    validDate y m d := by
  unfold allValidDates at h
  simp only [List.mem_flatMap, List.mem_map, List.mem_range] at h
  obtain ⟨i, hi, j, hj, hpair⟩ := h
  obtain ⟨hm, hd⟩ := Prod.mk.injEq .. ▸ hpair
  unfold validDate
  subst hm
  subst hd
  refine ⟨by omega, by omega, by omega, by omega⟩

/-- **C1.** `generate` is deterministic — it is a pure function, so invoking
it twice on the same `(year, format set)` yields the identical ordered
sequence — and every candidate it emits is the rendering, under one of the
requested formats, of a calendrically valid date (month 1-12, day valid for
that month and year, leap years honored); an invalid calendar combination is
never generated. -/
theorem generate_deterministic_and_valid (y : Nat) (fs : List DateFormat) :
    generate y fs = generate y fs ∧
      ∀ c ∈ generate y fs, ∃ f ∈ fs, ∃ m d, validDate y m d ∧ c = render f y m d := by
  refine ⟨rfl, ?_⟩
  intro c hc
  unfold generate at hc
  rw [mem_dedupFirst] at hc
  simp only [List.mem_flatMap, List.mem_map] at hc
  obtain ⟨f, hf, p, hp, hrender⟩ := hc
  exact ⟨f, hf, p.1, p.2, mem_allValidDates hp, hrender.symm⟩

/-- Witness for C1: applying the theorem at year 2005 with format set
`{MMDD}` and the concrete candidate `"0101"`. -/
theorem generate_deterministic_and_valid_witness :
    ∃ f ∈ [DateFormat.MMDD], ∃ m d, validDate 2005 m d ∧ ("0101") = render f 2005 m d := by
  refine (generate_deterministic_and_valid 2005 [DateFormat.MMDD]).2 ("0101") ?_
  unfold generate
  rw [mem_dedupFirst]
  simp only [List.mem_flatMap, List.mem_map]
  refine ⟨DateFormat.MMDD, by simp, (1, 1), ?_, by decide⟩
  decide

/-! ## Probe scheduler (modelled from the spec) -/

/-- Terminal status of a crack session (`Failed` of the spec's design notes is
an open question there and never reached by the described algorithm). -/
inductive TStatus where
  | found (c : String)
  | exhausted
  | cancelled
deriving DecidableEq

/-- A progress snapshot: total candidate count, attempted count, found flag
and found candidate. -/
structure Snap where
  attempted : Nat
  total : Nat
  found : Bool
  result : Option String
deriving DecidableEq

/-- The outcome of one scheduler run: terminal status, final attempted count,
and the ordered sequence of emitted progress snapshots (the last one is the
final snapshot delivered with the terminal transition). -/
structure RunResult where
  status : TStatus
  attempted : Nat
  snaps : List Snap
deriving DecidableEq

/-- Modelled from the spec: the caller-supplied concurrency is "clamped to a
sane minimum/maximum" (the UI offers 1-50). -/
def clampConc (n : Nat) : Nat := min 50 (max 1 n)


/-- Modelled from the spec: the probe-scheduler state machine
(`Running → {Found, Exhausted, Cancelled}`), whose backend implementation is
not in the source tree.  Workers are a fixed pool of size `M`; each round
("wave") the scheduler first checks the shared cancellation signal (`csig`,
indexed by wave number — cooperative cancellation checked before dispatch),
then dispatches the next `max 1 M` queued candidates to the pool.  All
dispatched probes run to completion (in-flight probes are never aborted) and
each completed probe increments the attempted counter exactly once; a
successful probe sets the found latch, sibling probes of the same wave finish
naturally, and no further wave is dispatched.  `probe c = true` means the
endpoint accepts candidate `c` (a `Transient` outcome is retried locally and
then counted as a non-match, so it is a rejection at this level).  One
snapshot is emitted per wave and a final snapshot accompanies the terminal
transition.  `fuel` makes the recursion structural; every wave consumes at
least one queued candidate, so `fuel = queue.length` (as `runScheduler`
supplies) always reaches the genuine terminal state and the zero-fuel
fallback is unreachable. -/
def runFrom (probe : String → Bool) (M : Nat) (csig : Nat → Bool) (total : Nat) :
    Nat → List String → Nat → Nat → RunResult
  | fuel, queue, att, wave =>
    if csig wave then
      ⟨.cancelled, att, [⟨att, total, false, none⟩]⟩
    else
      match queue with
      | [] => ⟨.exhausted, att, [⟨att, total, false, none⟩]⟩
      | c :: rest' =>
        match fuel with
        | 0 => ⟨.exhausted, att, [⟨att, total, false, none⟩]⟩
        | fuel' + 1 =>
          let batch := (c :: rest').take (max 1 M)
          let rest := (c :: rest').drop (max 1 M)
          let att' := att + batch.length
          match batch.find? probe with
          | some w => ⟨.found w, att', [⟨att', total, true, some w⟩]⟩
          | none =>
            let r := runFrom probe M csig total fuel' rest att' (wave + 1)
            ⟨r.status, r.attempted, ⟨att', total, false, none⟩ :: r.snaps⟩

/-- Modelled from the spec: a whole scheduler run over candidate list `cands`
with requested concurrency `conc` and external cancellation signal `csig`,
starting in `Running` with zero attempts. -/
def runScheduler (probe : String → Bool) (conc : Nat) (csig : Nat → Bool)
    (cands : List String) : RunResult :=
  runFrom probe (clampConc conc) csig cands.length cands.length cands 0 0

/-- The never-requested cancellation signal. -/
def noCancel : Nat → Bool := fun _ => false

/-- The snapshot that accompanies a run's terminal transition. -/
def finalSnap (r : RunResult) (total : Nat) : Snap :=
  match r.status with
  | .found w => ⟨r.attempted, total, true, some w⟩
  | _ => ⟨r.attempted, total, false, none⟩

lemma runFrom_eq_cancel {probe : String → Bool} {M : Nat} {csig : Nat → Bool}
    {total : Nat} {fuel : Nat} {queue : List String} {att wave : Nat}
    (h : csig wave = true) :
    runFrom probe M csig total fuel queue att wave =
      ⟨.cancelled, att, [⟨att, total, false, none⟩]⟩ := by
  rw [runFrom.eq_def]
  simp [h]

lemma runFrom_eq_nil {probe : String → Bool} {M : Nat} {csig : Nat → Bool}
    {total : Nat} {fuel : Nat} {att wave : Nat} (h : csig wave = false) :
    runFrom probe M csig total fuel [] att wave =
      ⟨.exhausted, att, [⟨att, total, false, none⟩]⟩ := by
  rw [runFrom.eq_def]
  simp [h]

lemma runFrom_eq_found {probe : String → Bool} {M : Nat} {csig : Nat → Bool}
    {total : Nat} {fuel : Nat} {c : String} {rest' : List String}
    {att wave : Nat} {w : String} (h : csig wave = false)
    (hfind : ((c :: rest').take (max 1 M)).find? probe = some w) :
    runFrom probe M csig total (fuel + 1) (c :: rest') att wave =
      ⟨.found w, att + ((c :: rest').take (max 1 M)).length,
        [⟨att + ((c :: rest').take (max 1 M)).length, total, true, some w⟩]⟩ := by
  rw [runFrom.eq_def]
  simp [h, hfind]

lemma runFrom_eq_step {probe : String → Bool} {M : Nat} {csig : Nat → Bool}
    {total : Nat} {fuel : Nat} {c : String} {rest' : List String} {att wave : Nat}
    (h : csig wave = false) (hfind : ((c :: rest').take (max 1 M)).find? probe = none) :
    runFrom probe M csig total (fuel + 1) (c :: rest') att wave =
      ⟨(runFrom probe M csig total fuel ((c :: rest').drop (max 1 M))
          (att + ((c :: rest').take (max 1 M)).length) (wave + 1)).status,
        (runFrom probe M csig total fuel ((c :: rest').drop (max 1 M))
          (att + ((c :: rest').take (max 1 M)).length) (wave + 1)).attempted,
        ⟨att + ((c :: rest').take (max 1 M)).length, total, false, none⟩ ::
          (runFrom probe M csig total fuel ((c :: rest').drop (max 1 M))
            (att + ((c :: rest').take (max 1 M)).length) (wave + 1)).snaps⟩ := by
  rw [runFrom.eq_def]
  simp [h, hfind]

lemma runFrom_exhausted (probe : String → Bool) (M : Nat) (csig : Nat → Bool)
    (total : Nat) : ∀ fuel queue att wave, queue.length ≤ fuel →
    (∀ c ∈ queue, probe c = false) → (∀ w, csig w = false) →
    (runFrom probe M csig total fuel queue att wave).status = TStatus.exhausted ∧
      (runFrom probe M csig total fuel queue att wave).attempted = att + queue.length := by
  intro fuel queue att wave
  induction fuel, queue, att, wave using runFrom.induct probe M csig total with
  | case1 fuel queue att wave hcs =>
    intro _ _ hnc
    rw [hnc wave] at hcs
    exact absurd hcs (by simp)
  | case2 fuel att wave hcs =>
    intro _ _ hnc
    rw [runFrom_eq_nil (hnc wave)]
    simp
  | case3 att wave hcs c rest' =>
    intro hfuel _ _
    simp at hfuel
  | case4 att wave hcs c rest' fuel' batch w hfind =>
    intro _ hno _
    have hval := List.find?_some hfind
    have hmem : w ∈ c :: rest' := List.mem_of_mem_take (List.mem_of_find?_eq_some hfind)
    rw [hno w hmem] at hval
    exact absurd hval (by simp)
  | case5 att wave hcs c rest' fuel' batch rest att' hfind ih =>
    intro hfuel hno hnc
    have hbl : batch.length = min (max 1 M) (rest'.length + 1) := by
      simp [List.length_take, show batch = (c :: rest').take (max 1 M) from rfl]
    have hrl : rest.length = (rest'.length + 1) - max 1 M := by
      simp [List.length_drop, show rest = (c :: rest').drop (max 1 M) from rfl]
    have hM1 : 1 ≤ max 1 M := Nat.le_max_left 1 M
    simp only [List.length_cons] at hfuel
    have hrec := ih (by omega) (fun x hx => hno x (List.mem_of_mem_drop hx)) hnc
    rw [runFrom_eq_step (hnc wave) hfind]
    refine ⟨hrec.1, ?_⟩
    have h2 : (runFrom probe M csig total fuel' ((c :: rest').drop (max 1 M))
        (att + ((c :: rest').take (max 1 M)).length) (wave + 1)).attempted =
        att' + rest.length := hrec.2
    rw [h2]
    have hal : att' = att + batch.length := rfl
    simp only [List.length_cons]
    omega

lemma runFrom_found (probe : String → Bool) (M : Nat) (csig : Nat → Bool)
    (total : Nat) : ∀ fuel queue att wave, queue.length ≤ fuel →
    (∀ w, csig w = false) → (∃ c ∈ queue, probe c = true) →
    ∃ w, (runFrom probe M csig total fuel queue att wave).status = TStatus.found w ∧
      probe w = true := by
  intro fuel queue att wave
  induction fuel, queue, att, wave using runFrom.induct probe M csig total with
  | case1 fuel queue att wave hcs =>
    intro _ hnc _
    rw [hnc wave] at hcs
    exact absurd hcs (by simp)
  | case2 fuel att wave hcs =>
    intro _ _ hex
    simp at hex
  | case3 att wave hcs c rest' =>
    intro hfuel _ _
    simp at hfuel
  | case4 att wave hcs c rest' fuel' batch w hfind =>
    intro _ hnc _
    refine ⟨w, ?_, List.find?_some hfind⟩
    rw [runFrom_eq_found (hnc wave) hfind]
  | case5 att wave hcs c rest' fuel' batch rest att' hfind ih =>
    intro hfuel hnc hex
    obtain ⟨c₀, hc₀, hp₀⟩ := hex
    have hsplit : c₀ ∈ (c :: rest').take (max 1 M) ∨ c₀ ∈ (c :: rest').drop (max 1 M) := by
      have := List.take_append_drop (max 1 M) (c :: rest')
      rw [← this] at hc₀
      exact List.mem_append.mp hc₀
    rcases hsplit with hb | hr
    · have := List.find?_eq_none.mp hfind c₀ hb
      rw [hp₀] at this
      exact absurd rfl this
    · have hrl : rest.length = (rest'.length + 1) - max 1 M := by
        simp [List.length_drop, show rest = (c :: rest').drop (max 1 M) from rfl]
      have hM1 : 1 ≤ max 1 M := Nat.le_max_left 1 M
      simp only [List.length_cons] at hfuel
      obtain ⟨w, hw, hpw⟩ := ih (by omega) hnc ⟨c₀, hr, hp₀⟩
      refine ⟨w, ?_, hpw⟩
      rw [runFrom_eq_step (hnc wave) hfind]
      exact hw

lemma runFrom_attempted_le (probe : String → Bool) (M : Nat) (csig : Nat → Bool)
    (total : Nat) : ∀ fuel queue att wave,
    (runFrom probe M csig total fuel queue att wave).attempted ≤ att + queue.length := by
  intro fuel queue att wave
  induction fuel, queue, att, wave using runFrom.induct probe M csig total with
  | case1 fuel queue att wave hcs =>
    rw [runFrom_eq_cancel hcs]
    simp
  | case2 fuel att wave hcs =>
    rw [runFrom_eq_nil (by simpa using hcs)]
    simp
  | case3 att wave hcs c rest' =>
    rw [runFrom.eq_def]
    simp [by simpa using hcs]
  | case4 att wave hcs c rest' fuel' batch w hfind =>
    rw [runFrom_eq_found (by simpa using hcs) hfind]
    simp only [List.length_take, List.length_cons]
    omega
  | case5 att wave hcs c rest' fuel' batch rest att' hfind ih =>
    rw [runFrom_eq_step (by simpa using hcs) hfind]
    refine le_trans ih ?_
    have hbl : batch.length = min (max 1 M) (rest'.length + 1) := by
      simp [List.length_take, show batch = (c :: rest').take (max 1 M) from rfl]
    have hrl : rest.length = (rest'.length + 1) - max 1 M := by
      simp [List.length_drop, show rest = (c :: rest').drop (max 1 M) from rfl]
    have hal : att' = att + batch.length := rfl
    simp only [List.length_cons]
    omega

lemma runFrom_snaps_mono (probe : String → Bool) (M : Nat) (csig : Nat → Bool)
    (total : Nat) : ∀ fuel queue att wave,
    (∀ s ∈ (runFrom probe M csig total fuel queue att wave).snaps, att ≤ s.attempted) ∧
      List.Chain' (fun a b : Snap => a.attempted ≤ b.attempted)
        (runFrom probe M csig total fuel queue att wave).snaps := by
  intro fuel queue att wave
  induction fuel, queue, att, wave using runFrom.induct probe M csig total with
  | case1 fuel queue att wave hcs =>
    rw [runFrom_eq_cancel hcs]
    simp
  | case2 fuel att wave hcs =>
    rw [runFrom_eq_nil (by simpa using hcs)]
    simp
  | case3 att wave hcs c rest' =>
    rw [runFrom.eq_def]
    simp [by simpa using hcs]
  | case4 att wave hcs c rest' fuel' batch w hfind =>
    rw [runFrom_eq_found (by simpa using hcs) hfind]
    simp
  | case5 att wave hcs c rest' fuel' batch rest att' hfind ih =>
    rw [runFrom_eq_step (by simpa using hcs) hfind]
    have ih1 : ∀ s ∈ (runFrom probe M csig total fuel' ((c :: rest').drop (max 1 M))
        (att + ((c :: rest').take (max 1 M)).length) (wave + 1)).snaps,
        att + ((c :: rest').take (max 1 M)).length ≤ s.attempted := ih.1
    have ih2 : List.Chain' (fun a b : Snap => a.attempted ≤ b.attempted)
        (runFrom probe M csig total fuel' ((c :: rest').drop (max 1 M))
          (att + ((c :: rest').take (max 1 M)).length) (wave + 1)).snaps := ih.2
    constructor
    · intro s hs
      rcases List.mem_cons.mp hs with hs | hs
      · rw [hs]
        exact Nat.le_add_right att _
      · exact le_trans (Nat.le_add_right att _) (ih1 s hs)
    · refine List.chain'_cons'.mpr ⟨?_, ih2⟩
      intro b hb
      exact ih1 b (List.mem_of_mem_head? hb)

lemma runFrom_cancelled (probe : String → Bool) (M : Nat) (csig : Nat → Bool)
    (total : Nat) : ∀ fuel queue att wave, ∀ k : Nat, queue.length ≤ fuel →
    (∀ c ∈ queue, probe c = false) →
    (∀ i j : Nat, i ≤ j → csig i = true → csig j = true) →
    csig (wave + k) = true → k * max 1 M < queue.length →
    (runFrom probe M csig total fuel queue att wave).status = TStatus.cancelled ∧
      (runFrom probe M csig total fuel queue att wave).attempted ≤ att + k * max 1 M := by
  intro fuel queue att wave
  induction fuel, queue, att, wave using runFrom.induct probe M csig total with
  | case1 fuel queue att wave hcs =>
    intro k _ _ _ _ _
    rw [runFrom_eq_cancel hcs]
    simp
  | case2 fuel att wave hcs =>
    intro k _ _ _ _ hlen
    simp at hlen
  | case3 att wave hcs c rest' =>
    intro k hfuel _ _ _ _
    simp at hfuel
  | case4 att wave hcs c rest' fuel' batch w hfind =>
    intro k _ hno _ _ _
    have hval := List.find?_some hfind
    have hmem : w ∈ c :: rest' := List.mem_of_mem_take (List.mem_of_find?_eq_some hfind)
    rw [hno w hmem] at hval
    exact absurd hval (by simp)
  | case5 att wave hcs c rest' fuel' batch rest att' hfind ih =>
    intro k hfuel hno hmono hk hlen
    have hcs' : csig wave = false := by simpa using hcs
    obtain _ | k' := k
    · rw [Nat.add_zero] at hk
      rw [hk] at hcs'
      exact absurd hcs' (by simp)
    have hbl : batch.length = min (max 1 M) (rest'.length + 1) := by
      simp [List.length_take, show batch = (c :: rest').take (max 1 M) from rfl]
    have hrl : rest.length = (rest'.length + 1) - max 1 M := by
      simp [List.length_drop, show rest = (c :: rest').drop (max 1 M) from rfl]
    have hmul : (k' + 1) * max 1 M = k' * max 1 M + max 1 M := by ring
    have hM1 : 1 ≤ max 1 M := Nat.le_max_left 1 M
    simp only [List.length_cons] at hlen hfuel
    have hlen' : k' * max 1 M < rest.length := by omega
    have hk' : csig (wave + 1 + k') = true := by
      have harith : wave + 1 + k' = wave + (k' + 1) := by omega
      rw [harith]
      exact hk
    have hrec := ih k' (by omega) (fun x hx => hno x (List.mem_of_mem_drop hx))
      hmono hk' hlen'
    rw [runFrom_eq_step hcs' hfind]
    refine ⟨hrec.1, ?_⟩
    have h2 : (runFrom probe M csig total fuel' ((c :: rest').drop (max 1 M))
        (att + ((c :: rest').take (max 1 M)).length) (wave + 1)).attempted ≤
        att' + k' * max 1 M := hrec.2
    have hal : att' = att + batch.length := rfl
    refine le_trans h2 ?_
    omega

lemma runFrom_getLast (probe : String → Bool) (M : Nat) (csig : Nat → Bool)
    (total : Nat) : ∀ fuel queue att wave,
    (runFrom probe M csig total fuel queue att wave).snaps.getLast? =
      some (finalSnap (runFrom probe M csig total fuel queue att wave) total) := by
  intro fuel queue att wave
  induction fuel, queue, att, wave using runFrom.induct probe M csig total with
  | case1 fuel queue att wave hcs =>
    rw [runFrom_eq_cancel hcs]
    simp [finalSnap]
  | case2 fuel att wave hcs =>
    rw [runFrom_eq_nil (by simpa using hcs)]
    simp [finalSnap]
  | case3 att wave hcs c rest' =>
    rw [runFrom.eq_def]
    simp [(show csig wave = false by simpa using hcs), finalSnap]
  | case4 att wave hcs c rest' fuel' batch w hfind =>
    rw [runFrom_eq_found (by simpa using hcs) hfind]
    simp [finalSnap]
  | case5 att wave hcs c rest' fuel' batch rest att' hfind ih =>
    rw [runFrom_eq_step (by simpa using hcs) hfind]
    have ih' : (runFrom probe M csig total fuel' ((c :: rest').drop (max 1 M))
        (att + ((c :: rest').take (max 1 M)).length) (wave + 1)).snaps.getLast? =
        some (finalSnap (runFrom probe M csig total fuel' ((c :: rest').drop (max 1 M))
          (att + ((c :: rest').take (max 1 M)).length) (wave + 1)) total) := ih
    rcases hsn : (runFrom probe M csig total fuel' ((c :: rest').drop (max 1 M))
        (att + ((c :: rest').take (max 1 M)).length) (wave + 1)).snaps with _ | ⟨x, xs⟩
    · rw [hsn] at ih'
      simp at ih'
    · rw [hsn] at ih'
      simp only [List.getLast?_cons_cons]
      rw [ih']
      unfold finalSnap
      rfl

lemma max_one_clampConc (n : Nat) : max 1 (clampConc n) = clampConc n := by
  unfold clampConc
  omega

/-- **C2.** For every concurrency level `N ≥ 1` and every candidate space
holding exactly one candidate the endpoint accepts, the scheduler terminates
in the `Found` state, the final attempted count is at most the total
candidate count, and the attempted counts across the emitted sequence of
progress snapshots never decrease. -/
theorem scheduler_one_match_found (probe : String → Bool) (conc : Nat)
    (cands : List String) (hconc : 1 ≤ conc) (hone : cands.countP probe = 1) :
    (∃ w, (runScheduler probe conc noCancel cands).status = TStatus.found w ∧
        probe w = true) ∧
      (runScheduler probe conc noCancel cands).attempted ≤ cands.length ∧
      List.Chain' (fun a b : Snap => a.attempted ≤ b.attempted)
        (runScheduler probe conc noCancel cands).snaps := by
  have hex : ∃ c ∈ cands, probe c = true := by
    have hpos : 0 < cands.countP probe := by omega
    simpa using List.countP_pos_iff.mp hpos
  refine ⟨?_, ?_, ?_⟩
  · exact runFrom_found probe (clampConc conc) noCancel cands.length cands.length cands 0 0
      le_rfl (fun _ => rfl) hex
  · simpa using
      runFrom_attempted_le probe (clampConc conc) noCancel cands.length cands.length cands 0 0
  · exact (runFrom_snaps_mono probe (clampConc conc) noCancel
      cands.length cands.length cands 0 0).2

/-- Witness for C2: concurrency 1 over `["a", "b", "c"]` where the endpoint
accepts exactly `"b"`. -/
theorem scheduler_one_match_found_witness :
    (∃ w, (runScheduler (fun c => c == ("b")) 1 noCancel
        [("a"), ("b"), ("c")]).status = TStatus.found w ∧ (fun c => c == ("b")) w = true) ∧
      (runScheduler (fun c => c == ("b")) 1 noCancel [("a"), ("b"), ("c")]).attempted ≤
        ([("a"), ("b"), ("c")] : List String).length ∧
      List.Chain' (fun a b : Snap => a.attempted ≤ b.attempted)
        (runScheduler (fun c => c == ("b")) 1 noCancel [("a"), ("b"), ("c")]).snaps :=
  scheduler_one_match_found (fun c => c == ("b")) 1 [("a"), ("b"), ("c")]
    (by decide) (by decide)

/-- **C3.** A run over a candidate space in which the endpoint accepts no
candidate (every probe is rejected) terminates in the `Exhausted` state with
the final attempted count equal to the total candidate count. -/
theorem scheduler_exhausted (probe : String → Bool) (conc : Nat)
    (cands : List String) (hno : ∀ c ∈ cands, probe c = false) :
    (runScheduler probe conc noCancel cands).status = TStatus.exhausted ∧
      (runScheduler probe conc noCancel cands).attempted = cands.length := by
  have h := runFrom_exhausted probe (clampConc conc) noCancel
    cands.length cands.length cands 0 0 le_rfl hno (fun _ => rfl)
  simpa using h

/-- Witness for C3: a three-candidate space with an endpoint that rejects
everything. -/
theorem scheduler_exhausted_witness :
    (runScheduler (fun _ => false) 10 noCancel [("a"), ("b"), ("c")]).status =
        TStatus.exhausted ∧
      (runScheduler (fun _ => false) 10 noCancel [("a"), ("b"), ("c")]).attempted =
        ([("a"), ("b"), ("c")] : List String).length :=
  scheduler_exhausted (fun _ => false) 10 [("a"), ("b"), ("c")] (fun _ _ => rfl)

/-- **C5.** If external cancellation is requested while the scheduler is
still `Running` — the signal `csig` is persistent (monotone), set by wave
`K`, and the queue cannot have drained within `K` waves — then the session
reaches the `Cancelled` terminal state after at most the probes already
dispatched complete (at most `clampConc conc` probes per wave before the
signal is observed, so at most `K * clampConc conc` attempts in all, and no
new probes start), and no progress snapshot is emitted after the transition:
the snapshot carrying the final attempted count of the `Cancelled` session is
the last one of the run.  The no-match hypothesis scopes the scenario to runs
the found latch cannot terminate first. -/
theorem scheduler_cancelled (probe : String → Bool) (conc : Nat)
    (csig : Nat → Bool) (cands : List String) (K : Nat)
    (hmono : ∀ i j : Nat, i ≤ j → csig i = true → csig j = true)
    (hK : csig K = true) (hlen : K * clampConc conc < cands.length)
    (hno : ∀ c ∈ cands, probe c = false) :
    (runScheduler probe conc csig cands).status = TStatus.cancelled ∧
      (runScheduler probe conc csig cands).attempted ≤ K * clampConc conc ∧
      (runScheduler probe conc csig cands).snaps.getLast? =
        some ⟨(runScheduler probe conc csig cands).attempted, cands.length,
          false, none⟩ := by
  have h := runFrom_cancelled probe (clampConc conc) csig cands.length
    cands.length cands 0 0 K le_rfl hno hmono (by simpa using hK)
    (by rwa [max_one_clampConc])
  rcases h with ⟨hst, hatt⟩
  refine ⟨hst, ?_, ?_⟩
  · have hatt' := hatt
    rw [max_one_clampConc] at hatt'
    simpa using hatt'
  · have hlast := runFrom_getLast probe (clampConc conc) csig cands.length
      cands.length cands 0 0
    have hfin : finalSnap (runFrom probe (clampConc conc) csig cands.length
        cands.length cands 0 0) cands.length =
        ⟨(runScheduler probe conc csig cands).attempted, cands.length, false, none⟩ := by
      unfold finalSnap
      unfold runScheduler
      rw [hst]
    rw [← hfin]
    exact hlast

/-- Witness for C5: three candidates, concurrency 1, a monotone cancellation
signal set from wave 1 on, and an endpoint that rejects everything. -/
theorem scheduler_cancelled_witness :
    (runScheduler (fun _ => false) 1 (fun i => decide (1 ≤ i)) [("a"), ("b"), ("c")]).status =
        TStatus.cancelled ∧
      (runScheduler (fun _ => false) 1 (fun i => decide (1 ≤ i))
        [("a"), ("b"), ("c")]).attempted ≤ 1 * clampConc 1 ∧
      (runScheduler (fun _ => false) 1 (fun i => decide (1 ≤ i))
        [("a"), ("b"), ("c")]).snaps.getLast? =
        some ⟨(runScheduler (fun _ => false) 1 (fun i => decide (1 ≤ i))
          [("a"), ("b"), ("c")]).attempted, ([("a"), ("b"), ("c")] : List String).length,
          false, none⟩ :=
  scheduler_cancelled (fun _ => false) 1 (fun i => decide (1 ≤ i)) [("a"), ("b"), ("c")] 1
    (fun i j hij hi => by
      simp only [decide_eq_true_eq] at hi ⊢
      omega)
    (by decide) (by decide) (fun _ _ => rfl)

lemma dedupFirst_of_nodup : ∀ {l : List String}, l.Nodup → dedupFirst l = l := by
  intro l h
  induction l with
  | nil => rfl
  | cons c rest ih =>
    rw [dedupFirst, ih (List.Nodup.of_cons h)]
    congr 1
    refine List.filter_eq_self.mpr ?_
    intro x hx
    have hne : x ≠ c := by
      intro he
      subst he
      exact (List.nodup_cons.mp h).1 hx
    simpa using hne

lemma daysInMonth_le (y m : Nat) : daysInMonth y m ≤ 31 := by
  unfold daysInMonth
  split <;> first | omega | (split <;> omega)

lemma pad2_inj : ∀ m < 32, ∀ n < 32, pad2 m = pad2 n → m = n := by decide

lemma pad2_data_length : ∀ m < 32, (pad2 m).data.length = 2 := by decide

lemma render_YYYYMMDD_inj (y : Nat) : ∀ p ∈ allValidDates y, ∀ q ∈ allValidDates y,
    render DateFormat.YYYYMMDD y p.1 p.2 = render DateFormat.YYYYMMDD y q.1 q.2 →
    p = q := by
  intro p hp q hq heq
  have hvp := mem_allValidDates (show (p.1, p.2) ∈ allValidDates y from hp)
  have hvq := mem_allValidDates (show (q.1, q.2) ∈ allValidDates y from hq)
  obtain ⟨hm1, hm2, hd1, hd2⟩ := hvp
  obtain ⟨hm1', hm2', hd1', hd2'⟩ := hvq
  have hdm : daysInMonth y p.1 ≤ 31 := daysInMonth_le y p.1
  have hdm' : daysInMonth y q.1 ≤ 31 := daysInMonth_le y q.1
  unfold render at heq
  have hdata := congrArg String.data heq
  rw [String.data_append, String.data_append, String.data_append,
    String.data_append] at hdata
  have hlen : ((padZero 4 (toString y)).data ++ (pad2 p.1).data).length =
      ((padZero 4 (toString y)).data ++ (pad2 q.1).data).length := by
    simp only [List.length_append]
    rw [pad2_data_length p.1 (by omega), pad2_data_length q.1 (by omega)]
  obtain ⟨hfront, hback⟩ := List.append_inj hdata hlen
  have hmid := (List.append_inj hfront (by simp)).2
  have hmeq : p.1 = q.1 := pad2_inj p.1 (by omega) q.1 (by omega) (String.ext hmid)
  have hdeq : p.2 = q.2 := pad2_inj p.2 (by omega) q.2 (by omega) (String.ext hback)
  exact Prod.ext hmeq hdeq

lemma nodup_allValidDates (y : Nat) : (allValidDates y).Nodup := by
  unfold allValidDates
  rw [List.nodup_flatMap]
  constructor
  · intro i _
    refine List.Nodup.map ?_ (List.nodup_range _)
    intro a b hab
    simp only [Prod.mk.injEq] at hab
    omega
  · refine (List.pairwise_lt_range 12).imp ?_
    intro i j hij
    intro x hxi hxj
    simp only [Function.onFun, List.mem_map, List.mem_range] at hxi hxj
    obtain ⟨a, _, ha⟩ := hxi
    obtain ⟨b, _, hb⟩ := hxj
    rw [← ha] at hb
    simp only [Prod.mk.injEq] at hb
    omega

lemma generate_2005_eq : generate 2005 [DateFormat.YYYYMMDD] =
    (allValidDates 2005).map fun p => render DateFormat.YYYYMMDD 2005 p.1 p.2 := by
  unfold generate
  rw [show ([DateFormat.YYYYMMDD].flatMap fun f =>
      (allValidDates 2005).map fun p => render f 2005 p.1 p.2) =
      (allValidDates 2005).map fun p => render DateFormat.YYYYMMDD 2005 p.1 p.2 by simp]
  exact dedupFirst_of_nodup
    (List.Nodup.map_on (render_YYYYMMDD_inj 2005) (nodup_allValidDates 2005))

set_option maxRecDepth 100000 in
/-- **C7.** For year 2005 with format set `{YYYYMMDD}` and concurrency 10,
`generate` produces 365 candidates (2005 is not a leap year); if the remote
endpoint accepts exactly the candidate `"20050613"`, the session terminates
`Found`, reports result `"20050613"`, and the final attempted count lies
between 1 and 366 inclusive. -/
theorem example_run_2005 :
    (generate 2005 [DateFormat.YYYYMMDD]).length = 365 ∧
      (runScheduler (fun c => c == ("20050613")) 10 noCancel
        (generate 2005 [DateFormat.YYYYMMDD])).status = TStatus.found ("20050613") ∧
      1 ≤ (runScheduler (fun c => c == ("20050613")) 10 noCancel
        (generate 2005 [DateFormat.YYYYMMDD])).attempted ∧
      (runScheduler (fun c => c == ("20050613")) 10 noCancel
        (generate 2005 [DateFormat.YYYYMMDD])).attempted ≤ 366 := by
  rw [generate_2005_eq]
  decide

/-! ## Result store (modelled from the spec) -/

/-- Modelled from the spec: the durable `CrackRecord` entity keyed by
username — display name, class label, discovered secret (all optional),
creation and last-update timestamps.  The backend store behind
`update_password_result` / `import_students` / `import_dates` is not in the
source tree. -/
structure CrackRecord where
  username : String
  name : Option String
  class_name : Option String
  password_date : Option String
  created_at : Nat
  last_updated : Nat
deriving DecidableEq

/-- The optional fields supplied to one upsert (`null` = not supplied). -/
structure UpsertFields where
  name : Option String
  class_name : Option String
  password_date : Option String
deriving DecidableEq

/-- "Only non-null supplied fields overwrite existing ones". -/
def mergeField : Option String → Option String → Option String
  | some v, _ => some v
  | none, old => old

/-- Apply an upsert's fields to an existing record: non-null fields
overwrite, `last_updated` advances to `now`, `created_at` is kept. -/
def applyFields (f : UpsertFields) (r : CrackRecord) (now : Nat) : CrackRecord :=
  { r with
    name := mergeField f.name r.name
    class_name := mergeField f.class_name r.class_name
    password_date := mergeField f.password_date r.password_date
    last_updated := now }

/-- Modelled from the spec: `upsert(username, fields...)` — if a record with
the username exists it is updated in place (non-null fields overwrite,
`last_updated` advances); otherwise a new record is appended with
`created_at = now`. -/
def upsert (s : List CrackRecord) (u : String) (f : UpsertFields) (now : Nat) :
    List CrackRecord :=
  if s.any (fun r => r.username == u) then
    s.map (fun r => if r.username == u then applyFields f r now else r)
  else
    s ++ [⟨u, f.name, f.class_name, f.password_date, now, now⟩]

/-- A sequence of upsert operations applied in order. -/
def applyUpserts (s : List CrackRecord) : List (String × UpsertFields × Nat) → List CrackRecord
  | [] => s
  | (u, f, t) :: ops => applyUpserts (upsert s u f t) ops

/-- The stored value of one field of the record keyed `u`, if any. -/
def storedField (s : List CrackRecord) (u : String) (g : CrackRecord → Option String) :
    Option String :=
  match s.find? (fun r => r.username == u) with
  | some r => g r
  | none => none

lemma mergeField_none (x : Option String) : mergeField x none = x := by
  cases x <;> rfl

lemma applyFields_username (f : UpsertFields) (r : CrackRecord) (now : Nat) :
    (applyFields f r now).username = r.username := rfl

lemma upsert_usernames (s : List CrackRecord) (u : String) (f : UpsertFields)
    (now : Nat) :
    (upsert s u f now).map CrackRecord.username =
      if s.any (fun r => r.username == u) then s.map CrackRecord.username
      else s.map CrackRecord.username ++ [u] := by
  unfold upsert
  by_cases h : s.any (fun r => r.username == u)
  · simp only [h, if_true, List.map_map]
    refine List.map_congr_left ?_
    intro r _
    by_cases hr : (r.username == u) = true <;> simp [hr, Function.comp, applyFields_username]
  · simp [h]

lemma upsert_nodup (s : List CrackRecord) (u : String) (f : UpsertFields) (now : Nat)
    (h : (s.map CrackRecord.username).Nodup) :
    ((upsert s u f now).map CrackRecord.username).Nodup := by
  rw [upsert_usernames]
  by_cases ha : s.any (fun r => r.username == u)
  · simpa [ha] using h
  · have ha' : s.any (fun r => r.username == u) = false := by simpa using ha
    have hu : u ∉ s.map CrackRecord.username := by
      intro hu
      obtain ⟨r, hr, hru⟩ := List.mem_map.mp hu
      have hall := List.any_eq_false.mp ha' r hr
      rw [hru] at hall
      simp at hall
    simp only [ha', Bool.false_eq_true, if_false]
    rw [List.nodup_append]
    refine ⟨h, List.nodup_singleton u, ?_⟩
    intro a hal har
    rw [List.mem_singleton.mp har] at hal
    exact hu hal

lemma applyUpserts_nodup (ops : List (String × UpsertFields × Nat)) :
    ∀ s : List CrackRecord, (s.map CrackRecord.username).Nodup →
    ((applyUpserts s ops).map CrackRecord.username).Nodup := by
  induction ops with
  | nil => intro s h; exact h
  | cons op ops ih =>
    intro s h
    obtain ⟨u, f, t⟩ := op
    exact ih (upsert s u f t) (upsert_nodup s u f t h)

lemma upsert_nil (u : String) (f : UpsertFields) (now : Nat) :
    upsert [] u f now = [⟨u, f.name, f.class_name, f.password_date, now, now⟩] := by
  unfold upsert
  simp

lemma upsert_cons_eq {r : CrackRecord} {u : String} (rest : List CrackRecord)
    (f : UpsertFields) (now : Nat) (h : r.username = u) :
    upsert (r :: rest) u f now = applyFields f r now ::
      rest.map (fun x => if x.username == u then applyFields f x now else x) := by
  unfold upsert
  simp [h]

lemma upsert_cons_ne {r : CrackRecord} {u : String} (rest : List CrackRecord)
    (f : UpsertFields) (now : Nat) (h : ¬r.username = u) :
    upsert (r :: rest) u f now = r :: upsert rest u f now := by
  unfold upsert
  have hk : (r.username == u) = false := by simpa using h
  by_cases ha : rest.any (fun x => x.username == u) <;>
    simp [hk, ha] <;> exact fun h' => absurd h' h

lemma find?_upsert_self (u : String) (f : UpsertFields) (now : Nat) :
    ∀ s : List CrackRecord,
    (upsert s u f now).find? (fun r => r.username == u) =
      some (match s.find? (fun r => r.username == u) with
            | some b => applyFields f b now
            | none => ⟨u, f.name, f.class_name, f.password_date, now, now⟩) := by
  intro s
  induction s with
  | nil => simp [upsert_nil, List.find?]
  | cons r rest ih =>
    by_cases hru : r.username = u
    · rw [upsert_cons_eq rest f now hru]
      have hk : (r.username == u) = true := by simpa using hru
      simp [List.find?_cons, applyFields_username, hk]
    · rw [upsert_cons_ne rest f now hru]
      have hk : (r.username == u) = false := by simpa using hru
      simp only [List.find?_cons, hk]
      exact ih

/-- **C4.** Starting from a store with at most one record per username,
(i) after any sequence of upsert operations the store still holds at most one
record per username; and (ii) upserting the same username twice (with
timestamps that advance) leaves exactly one record keyed by that username,
whose optional fields each hold the most recent non-null supplied value
(non-null fields of the second upsert win, then non-null fields of the first,
then whatever was stored before — only non-null supplied fields overwrite)
and whose `last_updated` timestamp has advanced to the later time. -/
theorem resultStore_upsert (store : List CrackRecord) (u : String)
    (f1 f2 : UpsertFields) (t1 t2 : Nat)
    (hnd : (store.map CrackRecord.username).Nodup) (ht : t1 < t2) :
    (∀ ops : List (String × UpsertFields × Nat),
      ((applyUpserts store ops).map CrackRecord.username).Nodup) ∧
      (upsert (upsert store u f1 t1) u f2 t2).countP
        (fun r => r.username == u) = 1 ∧
      ∃ r, (upsert (upsert store u f1 t1) u f2 t2).find?
          (fun x => x.username == u) = some r ∧
        r.username = u ∧ r.last_updated = t2 ∧ t1 < r.last_updated ∧
        r.name = mergeField f2.name
          (mergeField f1.name (storedField store u CrackRecord.name)) ∧
        r.class_name = mergeField f2.class_name
          (mergeField f1.class_name (storedField store u CrackRecord.class_name)) ∧
        r.password_date = mergeField f2.password_date
          (mergeField f1.password_date (storedField store u CrackRecord.password_date)) := by
  have h1 := find?_upsert_self u f1 t1 store
  have h2 := find?_upsert_self u f2 t2 (upsert store u f1 t1)
  rw [h1] at h2
  have hnd2 : ((upsert (upsert store u f1 t1) u f2 t2).map CrackRecord.username).Nodup :=
    upsert_nodup _ u f2 t2 (upsert_nodup store u f1 t1 hnd)
  refine ⟨fun ops => applyUpserts_nodup ops store hnd, ?_, ?_⟩
  · obtain ⟨r, hr⟩ : ∃ r, (upsert (upsert store u f1 t1) u f2 t2).find?
        (fun x => x.username == u) = some r := ⟨_, h2⟩
    have hmem : r ∈ upsert (upsert store u f1 t1) u f2 t2 :=
      List.mem_of_find?_eq_some hr
    have hru : r.username = u := by
      have := List.find?_some hr
      simpa using this
    have humem : u ∈ (upsert (upsert store u f1 t1) u f2 t2).map CrackRecord.username := by
      have hm := List.mem_map_of_mem CrackRecord.username hmem
      rwa [hru] at hm
    have hc : (upsert (upsert store u f1 t1) u f2 t2).countP (fun x => x.username == u) =
        List.count u ((upsert (upsert store u f1 t1) u f2 t2).map CrackRecord.username) := by
      rw [List.count, List.countP_map]
      rfl
    rw [hc]
    exact List.count_eq_one_of_mem hnd2 humem
  · rcases hfind : store.find? (fun r => r.username == u) with _ | b
    · simp only [hfind] at h2
      refine ⟨_, h2, rfl, rfl, ht, ?_, ?_, ?_⟩
      · simp [applyFields, storedField, hfind, mergeField_none]
      · simp [applyFields, storedField, hfind, mergeField_none]
      · simp [applyFields, storedField, hfind, mergeField_none]
    · simp only [hfind] at h2
      have hbu : b.username = u := by simpa using List.find?_some hfind
      refine ⟨_, h2, hbu, rfl, ht, ?_, ?_, ?_⟩
      · simp [applyFields, storedField, hfind]
      · simp [applyFields, storedField, hfind]
      · simp [applyFields, storedField, hfind]

/-- Witness for C4: the empty store, username `"alice"`, and two upserts with
different non-null fields at times 1 and 5. -/
theorem resultStore_upsert_witness :
    (∀ ops : List (String × UpsertFields × Nat),
      ((applyUpserts [] ops).map CrackRecord.username).Nodup) ∧
      (upsert (upsert [] ("alice") ⟨some ("n1"), none, some ("d1")⟩ 1) ("alice")
        ⟨none, some ("c2"), some ("d2")⟩ 5).countP
        (fun r => r.username == ("alice")) = 1 ∧
      ∃ r, (upsert (upsert [] ("alice") ⟨some ("n1"), none, some ("d1")⟩ 1) ("alice")
          ⟨none, some ("c2"), some ("d2")⟩ 5).find?
          (fun x => x.username == ("alice")) = some r ∧
        r.username = ("alice") ∧ r.last_updated = 5 ∧ 1 < r.last_updated ∧
        r.name = mergeField none
          (mergeField (some ("n1")) (storedField [] ("alice") CrackRecord.name)) ∧
        r.class_name = mergeField (some ("c2"))
          (mergeField none (storedField [] ("alice") CrackRecord.class_name)) ∧
        r.password_date = mergeField (some ("d2"))
          (mergeField (some ("d1")) (storedField [] ("alice") CrackRecord.password_date)) :=
  resultStore_upsert [] ("alice") ⟨some ("n1"), none, some ("d1")⟩
    ⟨none, some ("c2"), some ("d2")⟩ 1 5 (by simp) (by omega)

/-! ## Frontend (`src/components/PasswordCrackerTool.tsx`)

JavaScript string primitives are embedded as structurally recursive
functions over `String.data`, so that they evaluate on concrete inputs:
`jsTrim` is `String.prototype.trim`, `jsStartsWith` is `startsWith`,
`jsDrop tag.length` is `replace(tag, "")` for a string that starts with
`tag` (replace removes only the first occurrence, which is the prefix), and
`splitLines` is `split(/\r?\n/)`. -/

/-- Whitespace as trimmed by `String.prototype.trim` (the characters that
occur in this codebase's inputs). -/
def isWS (c : Char) : Bool := c == ' ' || c == '\t' || c == '\n' || c == '\r'

/-- JS `s.trim()`. -/
def jsTrim (s : String) : String :=
  String.mk (((s.data.dropWhile isWS).reverse.dropWhile isWS).reverse)

/-- JS `s.startsWith(t)`. -/
def jsStartsWith (s t : String) : Bool := s.data.take t.data.length == t.data

/-- JS `s.slice(n)` on code units; with `n = t.length` and `s.startsWith(t)`,
this is `s.replace(t, "")`. -/
def jsDrop (s : String) (n : Nat) : String := String.mk (s.data.drop n)

/-- JS `s.length`. -/
def strLen (s : String) : Nat := s.data.length

/-- Split a character list at every occurrence of `sep`. -/
def splitAux (sep : Char) : List Char → List (List Char)
  | [] => [[]]
  | c :: rest =>
    match splitAux sep rest with
    | [] => [[c]]
    | h :: t => if c == sep then [] :: h :: t else (c :: h) :: t

/-- Remove one trailing carriage return (the `\r?` of the `\r?\n`
separator). -/
def stripCR (l : List Char) : List Char :=
  if l.getLast? == some ('\r') then l.dropLast else l

/-- JS `text.split(/\r?\n/)`. -/
def splitLines (text : String) : List String :=
  (splitAux ('\n') text.data).map (fun l => String.mk (stripCR l))

/-- The request body `handleCrack` passes to the `crack_password` command. -/
structure CrackRequest where
  username : String
  name : Option String
  year : Int
  concurrency : Int
deriving DecidableEq

/-- The UI state updates and command invocations `handleCrack` performs, in
order, up to the `invoke` call. -/
inductive UIAction where
  | setMessage (s : String)
  | setRunning (b : Bool)
  | clearProgress
  | invokeCrack (req : CrackRequest)
deriving DecidableEq

/-- `handleCrack` of `PasswordCrackerTool.tsx` (lines 91-118), up to the
point where control passes to the backend: an empty trimmed username is
rejected with the message `请输入用户名` and nothing else happens; otherwise
the running flag is set, the message cleared, the progress reset and
`crack_password` invoked with the trimmed username (and the trimmed name if
non-empty, else `null`). -/
def handleCrack (username name : String) (year concurrency : Int) : List UIAction :=
  if jsTrim username = ("") then
    [UIAction.setMessage ("请输入用户名")]
  else
    [UIAction.setRunning true, UIAction.setMessage (""), UIAction.clearProgress,
      UIAction.invokeCrack ⟨jsTrim username,
        (if jsTrim name = ("") then none else some (jsTrim name)), year, concurrency⟩]

/-- **C6.** A start request whose username is empty or whitespace-only (its
JS `trim()` is the empty string) is rejected before any probing starts: the
only effect is the immediate error message `请输入用户名`; the
`crack_password` command is never invoked — hence no candidate is probed and
no progress event can be emitted for the request. -/
theorem handleCrack_rejects_blank (username name : String) (year concurrency : Int)
    (h : jsTrim username = ("")) :
    handleCrack username name year concurrency = [UIAction.setMessage ("请输入用户名")] ∧
      ∀ req : CrackRequest,
        UIAction.invokeCrack req ∉ handleCrack username name year concurrency := by
  unfold handleCrack
  rw [if_pos h]
  refine ⟨rfl, ?_⟩
  intro req hmem
  simp at hmem

/-- Witness for C6: the whitespace-only username `"  "`. -/
theorem handleCrack_rejects_blank_witness :
    handleCrack ("  ") ("x") 2005 10 = [UIAction.setMessage ("请输入用户名")] ∧
      ∀ req : CrackRequest,
        UIAction.invokeCrack req ∉ handleCrack ("  ") ("x") 2005 10 :=
  handleCrack_rejects_blank ("  ") ("x") 2005 10 (by decide)

/-- The `crack_progress` event payload (`CrackProgress` of the TSX). -/
structure CrackProgress where
  current_password : String
  total_attempted : Nat
  total_passwords : Nat
  found : Bool
  result : Option String
  elapsed_seconds : Nat
deriving DecidableEq

/-- A JS number as far as this computation needs: a finite value (idealised
as a rational), an infinity, or `NaN`. -/
inductive JSNum where
  | num (q : ℚ)
  | posInf
  | negInf
  | nan
deriving DecidableEq

/-- JS division of two non-negative integers: division by zero gives `NaN`
for `0 / 0` and `Infinity` otherwise. -/
def jsDiv (a b : Nat) : JSNum :=
  if b = 0 then (if a = 0 then JSNum.nan else JSNum.posInf)
  else JSNum.num ((a : ℚ) / (b : ℚ))

/-- Multiplication by 100 (`NaN` and infinities propagate). -/
def jsMul100 : JSNum → JSNum
  | JSNum.num q => JSNum.num (q * 100)
  | x => x

/-- `Math.round` (half away from zero upward; `NaN` and infinities
propagate). -/
def jsRound : JSNum → JSNum
  | JSNum.num q => JSNum.num ((⌊q + 1 / 2⌋ : Int) : ℚ)
  | x => x

/-- `progressPercent` of `PasswordCrackerTool.tsx` (lines 283-285):
`progress ? Math.round((progress.total_attempted / progress.total_passwords) * 100) : 0`
— guarded only by the progress object being non-null. -/
def progressPercent (progress : Option CrackProgress) : JSNum :=
  match progress with
  | none => JSNum.num 0
  | some p => jsRound (jsMul100 (jsDiv p.total_attempted p.total_passwords))

/-- A valid 0-100 integer percentage. -/
def isValidPercent (v : JSNum) : Prop := ∃ n : Nat, n ≤ 100 ∧ v = JSNum.num n

/-- Counterexample to C10 as stated: a `crack_progress` event with
`total_passwords = 0` but `total_attempted = 1` makes the UI compute
`1 / 0 = Infinity`, not `NaN`. -/
theorem progressPercent_zero_total_cex :
    progressPercent (some ⟨("x"), 1, 0, false, none, 0⟩) = JSNum.posInf ∧
      JSNum.posInf ≠ JSNum.nan := by
  constructor
  · rfl
  · intro h
    exact absurd h (by simp)

/-- **C10 (amended).** For every received `crack_progress` event whose
`total_passwords` field equals 0, the percentage the UI computes as
`Math.round((total_attempted / total_passwords) * 100)` is `NaN` when
`total_attempted` is also 0 (the empty candidate space) and `Infinity`
otherwise; in either case it is not a valid 0-100 integer: the division is
guarded only by the progress object being non-null, not by the total being
positive, so the percentage can be a valid 0-100 integer only when
`total_passwords > 0`. -/
theorem progressPercent_zero_total (p : CrackProgress) (h : p.total_passwords = 0) :
    progressPercent (some p) =
        (if p.total_attempted = 0 then JSNum.nan else JSNum.posInf) ∧
      ¬ isValidPercent (progressPercent (some p)) := by
  have hred : progressPercent (some p) =
      jsRound (jsMul100 (jsDiv p.total_attempted p.total_passwords)) := rfl
  rw [hred, h]
  unfold jsDiv
  simp only [if_pos rfl]
  by_cases ha : p.total_attempted = 0
  · simp [ha, jsMul100, jsRound, isValidPercent]
  · simp [ha, jsMul100, jsRound, isValidPercent]

/-- Witness for C10 (amended): the event `⟨"", 0, 0, false, none, 0⟩`. -/
theorem progressPercent_zero_total_witness :
    progressPercent (some ⟨(""), 0, 0, false, none, 0⟩) =
        (if (0 : Nat) = 0 then JSNum.nan else JSNum.posInf) ∧
      ¬ isValidPercent (progressPercent (some ⟨(""), 0, 0, false, none, 0⟩)) :=
  progressPercent_zero_total ⟨(""), 0, 0, false, none, 0⟩ rfl

/-- A spreadsheet row as `sheet_to_json` delivers it: an association of
header keys to (stringified) cell values. -/
def Row : Type := List (String × String)

/-- JS `String(row[k] ?? "")`: the cell under header `k`, or `""` when the
row has no such key. -/
def getCell (row : Row) (k : String) : String :=
  match row.find? (fun kv => kv.1 == k) with
  | some kv => kv.2
  | none => ("")

/-- Whether header `k` occurs among the row's keys. -/
def hasKey (row : Row) (k : String) : Bool := row.any (fun kv => kv.1 == k)

/-- The required headers of `parseStudentSheet`: 学号, 姓名, 班级. -/
def requiredKeys : List String := [("学号"), ("姓名"), ("班级")]

/-- One parsed roster row (`StudentImport` of the TSX). -/
structure StudentImport where
  username : String
  name : String
  class_name : String
deriving DecidableEq

/-- The row-to-record mapping inside `parseStudentSheet`: each of the three
fields is read (missing keys default to `""`) and whitespace-trimmed. -/
def toStudent (row : Row) : StudentImport :=
  ⟨jsTrim (getCell row ("学号")), jsTrim (getCell row ("姓名")),
    jsTrim (getCell row ("班级"))⟩

/-- `parseStudentSheet` of `PasswordCrackerTool.tsx` (lines 120-150): if a
required header appears in no row the error `缺少字段: …` is returned with no
data; otherwise the rows are mapped to trimmed records and those with an
empty trimmed 学号 dropped; if nothing remains the error
`未解析到有效的学号数据` is returned, else no error and the data. -/
def parseStudentSheet (rows : List Row) : String × List StudentImport :=
  if (requiredKeys.filter fun k => !(rows.any fun r => hasKey r k)) ≠ [] then
    (("缺少字段: ") ++ String.intercalate ("、")
      (requiredKeys.filter fun k => !(rows.any fun r => hasKey r k)), [])
  else
    if ((rows.map toStudent).filter fun s => s.username != ("")) = [] then
      (("未解析到有效的学号数据"), [])
    else
      ((""), (rows.map toStudent).filter fun s => s.username != (""))

lemma missing_error_ne (t : String) : ("缺少字段: ") ++ t ≠ ("") := by
  intro h
  have hlen := congrArg String.length h
  rw [String.length_append] at hlen
  have h6 : ("缺少字段: ").length = 6 := rfl
  have h0 : ("").length = 0 := rfl
  rw [h6, h0] at hlen
  omega

/-- **C9.** `parseStudentSheet` returns a non-empty error message (with an
empty data list) exactly when one of the required headers 学号, 姓名, 班级
appears in no row, or when every row's trimmed 学号 value is empty; otherwise
it returns an empty error together with exactly the rows whose trimmed
username is non-empty, each of the three fields whitespace-trimmed. -/
theorem parseStudentSheet_spec (rows : List Row) :
    ((parseStudentSheet rows).1 ≠ ("") ↔
        ((∃ k ∈ requiredKeys, ∀ r ∈ rows, hasKey r k = false) ∨
          ∀ r ∈ rows, jsTrim (getCell r ("学号")) = (""))) ∧
      ((parseStudentSheet rows).1 ≠ ("") → (parseStudentSheet rows).2 = []) ∧
      ((parseStudentSheet rows).1 = ("") →
        (parseStudentSheet rows).2 =
          (rows.map toStudent).filter fun s => s.username != ("")) := by
  have hpred : ∀ k : String, ((!(rows.any fun r => hasKey r k)) = true ↔
      ∀ r ∈ rows, hasKey r k = false) := by
    intro k
    rw [Bool.not_eq_true', List.any_eq_false]
    constructor
    · intro h r hr
      have := h r hr
      simpa using this
    · intro h r hr
      rw [h r hr]
      simp
  have hmiss : ((requiredKeys.filter fun k => !(rows.any fun r => hasKey r k)) ≠ []) ↔
      ∃ k ∈ requiredKeys, ∀ r ∈ rows, hasKey r k = false := by
    constructor
    · intro hne
      obtain ⟨k, hkmem⟩ := List.exists_mem_of_ne_nil _ hne
      exact ⟨k, (List.mem_filter.mp hkmem).1, (hpred k).mp (List.mem_filter.mp hkmem).2⟩
    · intro hex heq
      obtain ⟨k, hk, hall⟩ := hex
      have hmem : k ∈ requiredKeys.filter fun k => !(rows.any fun r => hasKey r k) :=
        List.mem_filter.mpr ⟨hk, (hpred k).mpr hall⟩
      rw [heq] at hmem
      exact absurd hmem (List.not_mem_nil k)
  have hdata : (((rows.map toStudent).filter fun s => s.username != ("")) = []) ↔
      ∀ r ∈ rows, jsTrim (getCell r ("学号")) = ("") := by
    rw [List.filter_eq_nil_iff]
    constructor
    · intro h r hr
      have := h (toStudent r) (List.mem_map_of_mem toStudent hr)
      simpa [toStudent] using this
    · intro h s hs
      obtain ⟨r, hr, hsr⟩ := List.mem_map.mp hs
      rw [← hsr]
      simpa [toStudent] using h r hr
  unfold parseStudentSheet
  by_cases hm : (requiredKeys.filter fun k => !(rows.any fun r => hasKey r k)) = []
  · rw [if_neg (by simpa using hm)]
    by_cases hd : ((rows.map toStudent).filter fun s => s.username != ("")) = []
    · rw [if_pos hd]
      refine ⟨?_, fun _ => rfl, ?_⟩
      · simp only [ne_eq]
        constructor
        · intro _
          exact Or.inr (hdata.mp hd)
        · intro _
          decide
      · intro h
        exact absurd h (by decide)
    · rw [if_neg hd]
      refine ⟨?_, ?_, fun _ => rfl⟩
      · constructor
        · intro h
          exact absurd rfl h
        · intro h
          rcases h with h | h
          · exact absurd (hmiss.mpr h) (by simpa using hm)
          · exact absurd (hdata.mpr h) hd
      · intro h
        exact absurd rfl h
  · rw [if_pos (by simpa using hm)]
    refine ⟨?_, fun _ => rfl, ?_⟩
    · constructor
      · intro _
        exact Or.inl (hmiss.mp hm)
      · intro _
        exact missing_error_ne _
    · intro h
      exact absurd h (missing_error_ne _)

/-- Witness for C9: a one-row sheet with all three headers and 学号 `" 1 "`. -/
theorem parseStudentSheet_spec_witness :
    (parseStudentSheet [[(("学号"), (" 1 ")), (("姓名"), ("n")), (("班级"), ("c"))]]).2 =
      (([[(("学号"), (" 1 ")), (("姓名"), ("n")), (("班级"), ("c"))]] : List Row).map
        toStudent).filter (fun s => s.username != ("")) :=
  (parseStudentSheet_spec [[(("学号"), (" 1 ")), (("姓名"), ("n")), (("班级"), ("c"))]]).2.2
    (by decide)

/-- One imported date record (`DateImport` of the TSX). -/
structure DateImport where
  username : String
  password_date : String
  encoded_value : Option String
deriving DecidableEq

/-- The in-progress block of `parseDateText` (`current`, a
`Partial<DateImport>`): `none` models a JS `undefined` field. -/
structure PartialDI where
  username : Option String
  password_date : Option String
  encoded_value : Option String

/-- An entry with JS-truthy username and password_date. -/
def goodDI (e : DateImport) : Prop := e.username ≠ ("") ∧ e.password_date ≠ ("")

/-- `pushIfValid` of `parseDateText`: the current block is appended to the
results only when both its username and its password_date are truthy
(defined and non-empty); its `encoded_value ?? null` comes along. -/
def pushIfValid (cur : PartialDI) (acc : List DateImport) : List DateImport :=
  match cur.username, cur.password_date with
  | some u, some p =>
    if u != ("") && p != ("") then acc ++ [⟨u, p, cur.encoded_value⟩] else acc
  | _, _ => acc

/-- The `Username:` line marker. -/
def userTag : String := ("Username:")

/-- The `Plain Password (Date):` line marker. -/
def pwdTag : String := ("Plain Password (Date):")

/-- The `Value for 'encoded' field Sent:` line marker (the quotes around
`encoded` are apostrophes, built from code point 39). -/
def encTag : String :=
  ("Value for ") ++ String.singleton (Char.ofNat 39) ++ ("encoded") ++
    String.singleton (Char.ofNat 39) ++ (" field Sent:")

/-- The line loop of `parseDateText` (lines 216-234 of the TSX): each line is
trimmed; blank lines are skipped; a `Username:` line pushes the previous
block (if complete) and starts a fresh one; a `Plain Password (Date):` or
`Value for 'encoded' field Sent:` line sets the corresponding field of the
current block; the final block is pushed after the loop.  `replace(tag, "")`
on a line that starts with `tag` removes exactly that prefix, hence
`jsDrop _ (strLen tag)`. -/
def processLines : List String → PartialDI → List DateImport → List DateImport
  | [], cur, acc => pushIfValid cur acc
  | raw :: rest, cur, acc =>
    if jsTrim raw = ("") then processLines rest cur acc
    else if jsStartsWith (jsTrim raw) userTag then
      processLines rest ⟨some (jsTrim (jsDrop (jsTrim raw) (strLen userTag))), none, none⟩
        (pushIfValid cur acc)
    else if jsStartsWith (jsTrim raw) pwdTag then
      processLines rest
        { cur with password_date := some (jsTrim (jsDrop (jsTrim raw) (strLen pwdTag))) } acc
    else if jsStartsWith (jsTrim raw) encTag then
      processLines rest
        { cur with encoded_value := some (jsTrim (jsDrop (jsTrim raw) (strLen encTag))) } acc
    else processLines rest cur acc

/-- The `results` array of `parseDateText` before deduplication. -/
def rawResults (text : String) : List DateImport :=
  processLines (splitLines text) ⟨none, none, none⟩ []

/-- JS `Map.set` keyed by username on a list in insertion order: an existing
key keeps its position and gets the new value; a new key is appended. -/
def mapSet : List DateImport → DateImport → List DateImport
  | [], item => [item]
  | e :: rest, item =>
    if e.username = item.username then item :: rest else e :: mapSet rest item

/-- The dedup loop body of `parseDateText`: `if (item.username &&
item.password_date) deduped.set(item.username, item)`. -/
def dedupStep (m : List DateImport) (item : DateImport) : List DateImport :=
  if item.username != ("") && item.password_date != ("") then mapSet m item else m

/-- `parseDateText` of `PasswordCrackerTool.tsx` (lines 201-243): parse the
blocks, then deduplicate by username with last-value-wins `Map` semantics and
return the map's values. -/
def parseDateText (text : String) : List DateImport :=
  (rawResults text).foldl dedupStep []

lemma pushIfValid_good (cur : PartialDI) (acc : List DateImport)
    (h : ∀ e ∈ acc, goodDI e) : ∀ e ∈ pushIfValid cur acc, goodDI e := by
  unfold pushIfValid
  rcases cur with ⟨cu, cp, ce⟩
  dsimp only
  cases cu with
  | none => exact h
  | some u =>
    cases cp with
    | none => exact h
    | some p =>
      dsimp only
      by_cases hg : (u != ("") && p != ("")) = true
      · rw [if_pos hg]
        intro e he
        rcases List.mem_append.mp he with he | he
        · exact h e he
        · rw [List.mem_singleton.mp he]
          simp only [Bool.and_eq_true] at hg
          exact ⟨by simpa using hg.1, by simpa using hg.2⟩
      · rw [if_neg hg]
        exact h

lemma processLines_good : ∀ (lines : List String) (cur : PartialDI)
    (acc : List DateImport), (∀ e ∈ acc, goodDI e) →
    ∀ e ∈ processLines lines cur acc, goodDI e := by
  intro lines
  induction lines with
  | nil =>
    intro cur acc h
    exact pushIfValid_good cur acc h
  | cons raw rest ih =>
    intro cur acc h
    rw [processLines]
    split_ifs with h1 h2 h3 h4
    · exact ih _ _ h
    · exact ih _ _ (pushIfValid_good cur acc h)
    · exact ih _ _ h
    · exact ih _ _ h
    · exact ih _ _ h

lemma mem_mapSet {item e : DateImport} : ∀ {m : List DateImport},
    e ∈ mapSet m item → e = item ∨ e ∈ m := by
  intro m
  induction m with
  | nil =>
    intro h
    rw [mapSet] at h
    exact Or.inl (List.mem_singleton.mp h)
  | cons x rest ih =>
    intro h
    rw [mapSet] at h
    by_cases hx : x.username = item.username
    · rw [if_pos hx] at h
      rcases List.mem_cons.mp h with h | h
      · exact Or.inl h
      · exact Or.inr (List.mem_cons_of_mem x h)
    · rw [if_neg hx] at h
      rcases List.mem_cons.mp h with h | h
      · exact Or.inr (by rw [h]; exact List.mem_cons_self x rest)
      · rcases ih h with h' | h'
        · exact Or.inl h'
        · exact Or.inr (List.mem_cons_of_mem x h')

lemma mapSet_nodup {item : DateImport} : ∀ {m : List DateImport},
    (m.map DateImport.username).Nodup →
    ((mapSet m item).map DateImport.username).Nodup := by
  intro m
  induction m with
  | nil =>
    intro _
    rw [mapSet]
    simp
  | cons x rest ih =>
    intro h
    rw [mapSet]
    by_cases hx : x.username = item.username
    · rw [if_pos hx]
      simp only [List.map_cons] at h ⊢
      rw [← hx]
      exact h
    · rw [if_neg hx]
      simp only [List.map_cons, List.nodup_cons] at h ⊢
      refine ⟨?_, ih h.2⟩
      intro hmem
      obtain ⟨e, he, heq⟩ := List.mem_map.mp hmem
      rcases mem_mapSet he with h' | h'
      · rw [h'] at heq
        exact hx heq.symm
      · exact h.1 (List.mem_map.mpr ⟨e, h', heq⟩)

lemma find?_mapSet {item : DateImport} {u : String} : ∀ {m : List DateImport},
    (m.map DateImport.username).Nodup →
    (mapSet m item).find? (fun e => e.username == u) =
      if item.username = u then some item
      else m.find? (fun e => e.username == u) := by
  intro m
  induction m with
  | nil =>
    intro _
    rw [mapSet]
    by_cases hiu : item.username = u
    · have hb : (item.username == u) = true := by simpa using hiu
      simp [List.find?, hb, hiu]
    · have hb : (item.username == u) = false := by simpa using hiu
      simp [List.find?, hb, hiu]
  | cons x rest ih =>
    intro h
    rw [mapSet]
    by_cases hx : x.username = item.username
    · rw [if_pos hx]
      by_cases hiu : item.username = u
      · simp [List.find?_cons, hiu]
      · have hxu : ¬ x.username = u := by rw [hx]; exact hiu
        simp [List.find?_cons, hiu, hxu]
    · rw [if_neg hx]
      simp only [List.map_cons, List.nodup_cons] at h
      by_cases hxu : x.username = u
      · have hiu : ¬ item.username = u := fun hiu => hx (hxu.trans hiu.symm)
        simp [List.find?_cons, hxu, hiu]
      · simp only [List.find?_cons]
        have hbx : (x.username == u) = false := by simpa using hxu
        rw [hbx]
        simp only [cond_false]
        rw [ih h.2]

lemma foldl_dedup_eq_mapSet : ∀ (l : List DateImport), (∀ e ∈ l, goodDI e) →
    ∀ acc : List DateImport, l.foldl dedupStep acc = l.foldl mapSet acc := by
  intro l
  induction l with
  | nil => intro _ acc; rfl
  | cons x rest ih =>
    intro h acc
    rw [List.foldl_cons, List.foldl_cons]
    have hx := h x (List.mem_cons_self x rest)
    have hstep : dedupStep acc x = mapSet acc x := by
      unfold dedupStep
      have h1 : (x.username != ("")) = true := by simpa using hx.1
      have h2 : (x.password_date != ("")) = true := by simpa using hx.2
      rw [if_pos (by rw [h1, h2]; rfl)]
    rw [hstep]
    exact ih (fun e he => h e (List.mem_cons_of_mem x he)) (mapSet acc x)

lemma foldl_mapSet_nodup : ∀ (l acc : List DateImport),
    (acc.map DateImport.username).Nodup →
    ((l.foldl mapSet acc).map DateImport.username).Nodup := by
  intro l
  induction l with
  | nil => intro acc h; exact h
  | cons x rest ih =>
    intro acc h
    rw [List.foldl_cons]
    exact ih (mapSet acc x) (mapSet_nodup h)

lemma mem_foldl_mapSet : ∀ (l acc : List DateImport) (e : DateImport),
    e ∈ l.foldl mapSet acc → e ∈ acc ∨ e ∈ l := by
  intro l
  induction l with
  | nil => intro acc e h; exact Or.inl h
  | cons x rest ih =>
    intro acc e h
    rw [List.foldl_cons] at h
    rcases ih (mapSet acc x) e h with h' | h'
    · rcases mem_mapSet h' with h'' | h''
      · exact Or.inr (by rw [h'']; exact List.mem_cons_self x rest)
      · exact Or.inl h''
    · exact Or.inr (List.mem_cons_of_mem x h')

lemma find?_foldl_mapSet (u : String) : ∀ (l acc : List DateImport),
    (acc.map DateImport.username).Nodup →
    (l.foldl mapSet acc).find? (fun e => e.username == u) =
      (l.reverse.find? (fun e => e.username == u)).or
        (acc.find? (fun e => e.username == u)) := by
  intro l
  induction l with
  | nil =>
    intro acc _
    simp [Option.or]
  | cons x rest ih =>
    intro acc h
    rw [List.foldl_cons, ih (mapSet acc x) (mapSet_nodup h), find?_mapSet h,
      List.reverse_cons, List.find?_append]
    cases hA : rest.reverse.find? (fun e => e.username == u) with
    | some e => simp [Option.or]
    | none =>
      by_cases hxu : x.username = u
      · have hb : (x.username == u) = true := by simpa using hxu
        simp [List.find?, hb, hxu, Option.or]
      · have hb : (x.username == u) = false := by simpa using hxu
        simp [List.find?, hb, hxu, Option.or]

/-- **C8.** `parseDateText` returns at most one entry per username (the
usernames of the result are pairwise distinct); every returned entry comes
from a pushed block — one that had both a truthy `Username:` and a truthy
`Plain Password (Date):` line, so blocks lacking either field contribute
nothing; and for every username the returned entry (looked up by `find?`) is
exactly the entry of the *last* complete block naming it (the first match in
the reversed block list), so later blocks replace earlier ones. -/
theorem parseDateText_spec (text : String) :
    ((parseDateText text).map DateImport.username).Nodup ∧
      (∀ e ∈ parseDateText text,
        e ∈ rawResults text ∧ e.username ≠ ("") ∧ e.password_date ≠ ("")) ∧
      (∀ u : String, (parseDateText text).find? (fun e => e.username == u) =
        ((rawResults text).reverse).find? (fun e => e.username == u)) := by
  have hgood : ∀ e ∈ rawResults text, goodDI e :=
    processLines_good (splitLines text) ⟨none, none, none⟩ []
      (by intro e he; simp at he)
  have heq : parseDateText text = (rawResults text).foldl mapSet [] :=
    foldl_dedup_eq_mapSet (rawResults text) hgood []
  refine ⟨?_, ?_, ?_⟩
  · rw [heq]
    exact foldl_mapSet_nodup _ [] (by simp)
  · intro e he
    rw [heq] at he
    rcases mem_foldl_mapSet _ [] e he with h | h
    · simp at h
    · exact ⟨h, (hgood e h).1, (hgood e h).2⟩
  · intro u
    rw [heq, find?_foldl_mapSet u _ [] (by simp)]
    cases h : (rawResults text).reverse.find? (fun e => e.username == u) <;>
      simp [Option.or, List.find?]

/-- Witness for C8: a text with two complete blocks for `"alice"`; the
returned entry is the one of the last block. -/
theorem parseDateText_spec_witness :
    (⟨("alice"), ("19990101"), none⟩ : DateImport) ∈
        rawResults ("Username: alice\nPlain Password (Date): 20050613\nUsername: alice\nPlain Password (Date): 19990101") ∧
      (⟨("alice"), ("19990101"), none⟩ : DateImport).username ≠ ("") ∧
      (⟨("alice"), ("19990101"), none⟩ : DateImport).password_date ≠ ("") :=
  (parseDateText_spec ("Username: alice\nPlain Password (Date): 20050613\nUsername: alice\nPlain Password (Date): 19990101")).2.1
    ⟨("alice"), ("19990101"), none⟩ (by decide)

end MyToolbox
